import Mathlib

/-!
Verification of the tiled parallel-rendering pipeline
(`src/main.rs`, `src/app.rs`, `src/app_config.rs`).

The development shallowly embeds the arithmetic of the configuration
(`AppConfig::tiles_x/tiles_y/tiles/tiles_pixel_bytes`), the two
`get_tile_bounds` / `copy_tile` implementations (the `main.rs` one and the
`app.rs` one), the reliable-send loop `message_thread`, the scheduler
`queue_tiles`, the worker body `render_tile` and the shutdown fan-out
`wait_for_exit`.

`u32` values are embedded as `Nat` with explicit `% 2 ^ 32` wherever the
source arithmetic can exceed the `u32` range; `usize` arithmetic stays
plain because every `usize` value reached here is far below `2 ^ 64`.

The `f32` arithmetic of `AppConfig::tiles_x` / `tiles_y` is embedded by an
exact rational model of IEEE-754 binary32 round-to-nearest-even.  The
model is exact for the magnitudes these functions produce: every value
reaching an `f32` operation in `tiles_x`/`tiles_y` is `0` or `≥ 1`
(width, height and tile_size are nonzero by their Rust types), and the
model rounds any rational `≥ 1` to 24 significant bits exactly as
binary32 does (no overflow is reachable: all values stay far below
`2 ^ 128`).  Values in the open interval `(0, 1)` never occur and the
model maps them to `0`.
-/

/-- Number of bytes per RGBA pixel (`COLOR_CHANNELS` in `app_config.rs`). -/
def COLOR_CHANNELS : ℕ := 4

/-- `2 ^ 32`, the modulus of `u32` arithmetic. -/
def U32 : ℕ := 2 ^ 32

/-- Wrapping `u32` subtraction (`a - b` in release-mode Rust), for `a b < 2 ^ 32`. -/
def wsub (a b : ℕ) : ℕ := (a + U32 - b) % U32

/-- Base-2 logarithm with explicit fuel, structurally recursive so the kernel
can evaluate it on literals. -/
def log2fuel : ℕ → ℕ → ℕ
  | 0, _ => 0
  | fuel + 1, n => if n < 2 then 0 else log2fuel fuel (n / 2) + 1

/-- `natLog2 n` is `⌊log₂ n⌋` for `n ≥ 1` (and `0` at `0`). -/
def natLog2 (n : ℕ) : ℕ := log2fuel n n

/-- Round a rational to the nearest integer, ties to even
(the IEEE-754 default rounding of the fractional part). -/
def roundHE (x : ℚ) : ℤ :=
  if Int.fract x = 1 / 2 then (if 2 ∣ ⌊x⌋ then ⌊x⌋ else ⌊x⌋ + 1) else round x

/-- The distance between consecutive binary32 values around `q` (for `q ≥ 1`):
`2 ^ (⌊log₂ q⌋ - 23)`. -/
def f32ulp (q : ℚ) : ℚ := (2 ^ natLog2 ⌊q⌋.toNat : ℚ) / 2 ^ 23

/-- Exact model of rounding a real (rational) value to binary32,
round-to-nearest ties-to-even; exact for `q = 0` and `q ≥ 1`,
the only values produced by the embedded `f32` expressions. -/
def f32RNE (q : ℚ) : ℚ :=
  if q < 1 then 0 else (roundHE (q / f32ulp q) : ℚ) * f32ulp q

/-- `n as f32` for `n : u32` (or `u8`). -/
def f32ofNat (n : ℕ) : ℚ := f32RNE (n : ℚ)

/-- binary32 addition. -/
def f32add (a b : ℚ) : ℚ := f32RNE (a + b)

/-- binary32 division. -/
def f32div (a b : ℚ) : ℚ := f32RNE (a / b)

/-- `x as u32` for `x : f32`: truncation toward zero, saturating at the
`u32` range (negative values clamp to `0`, which `Int.toNat` performs). -/
def f32toU32 (q : ℚ) : ℕ := min (2 ^ 32 - 1) ⌊q⌋.toNat

/-- The program configuration (`AppConfig` in `app_config.rs`).
Field types in the source are `NonZeroU32`, `NonZeroU32`, `NonZeroUsize`,
`NonZeroU8`, `NonZeroU64`; the corresponding range facts are collected in
`AppConfig.Valid`. -/
structure AppConfig where
  width : ℕ
  height : ℕ
  num_threads : ℕ
  tile_size : ℕ
  max_load_millis : ℕ

/-- Range invariants guaranteed by the Rust field types
(`NonZeroU32` / `NonZeroUsize` / `NonZeroU8` / `NonZeroU64`). -/
def AppConfig.Valid (c : AppConfig) : Prop :=
  1 ≤ c.width ∧ c.width < 2 ^ 32 ∧
  1 ≤ c.height ∧ c.height < 2 ^ 32 ∧
  1 ≤ c.num_threads ∧
  1 ≤ c.tile_size ∧ c.tile_size ≤ 255 ∧
  1 ≤ c.max_load_millis

instance (c : AppConfig) : Decidable c.Valid := by
  unfold AppConfig.Valid; infer_instance

/-- `AppConfig::threads()` (validation aside, it returns `num_threads`). -/
def AppConfig.threads (c : AppConfig) : ℕ := c.num_threads

/-- `AppConfig::tiles_x()`:
`((width as f32 + (tile_size - 1) as f32) / tile_size as f32) as u32`. -/
def AppConfig.tiles_x (c : AppConfig) : ℕ :=
  f32toU32 (f32div (f32add (f32ofNat c.width) (f32ofNat (c.tile_size - 1)))
    (f32ofNat c.tile_size))

/-- `AppConfig::tiles_y()`:
`((height as f32 + (tile_size - 1) as f32) / tile_size as f32) as u32`. -/
def AppConfig.tiles_y (c : AppConfig) : ℕ :=
  f32toU32 (f32div (f32add (f32ofNat c.height) (f32ofNat (c.tile_size - 1)))
    (f32ofNat c.tile_size))

/-- `AppConfig::tiles()`: `tiles_x() * tiles_y()` in `u32` arithmetic. -/
def AppConfig.tiles (c : AppConfig) : ℕ := (c.tiles_x * c.tiles_y) % U32

/-- `AppConfig::tiles_pixel_bytes()`:
`tile_size as usize * tile_size as usize * COLOR_CHANNELS`. -/
def AppConfig.tiles_pixel_bytes (c : AppConfig) : ℕ :=
  c.tile_size * c.tile_size * COLOR_CHANNELS

/-- Size in bytes of the shared frame buffer created by
`Pixels::new(width, height, _)`: `width * height * 4`. -/
def frame_bytes (c : AppConfig) : ℕ := c.width * c.height * COLOR_CHANNELS

/-- Outcome of one `try_send` attempt on a crossbeam channel. -/
inductive SendOutcome
  | ok
  | full
  | disconnected
deriving DecidableEq

/-- Destination channels of the sends performed by `wait_for_exit` in
`main.rs`: the scheduler stop channel, the redraw stop channel, the work
channel, the result channel, and the completion channel. -/
inductive Dest
  | queue
  | redraw
  | work
  | result
  | done
deriving DecidableEq

namespace MainRs

/-- `get_tile_bounds` in `main.rs`: clamps `min + tile_size` to
`dim - 1`, so the maxima are exclusive for interior tiles but inclusive
at clamped edges. -/
def get_tile_bounds (c : AppConfig) (tile_idx : ℕ) : ℕ × ℕ × ℕ × ℕ :=
  let tile_x := tile_idx % c.tiles_x
  let tile_y := tile_idx / c.tiles_x
  let min_y := tile_y * c.tile_size % U32
  let max_y0 := (min_y + c.tile_size) % U32
  let max_y := if c.height - 1 < max_y0 then c.height - 1 else max_y0
  let min_x := tile_x * c.tile_size % U32
  let max_x0 := (min_x + c.tile_size) % U32
  let max_x := if c.width - 1 < max_x0 then c.width - 1 else max_x0
  (min_x, min_y, max_x, max_y)

/-- The row copies performed by the `Merge` arm of `copy_tile` in
`main.rs`: for each `y` in `y_min..y_max` (exclusive), the
`(dst_start, dst_end, src_start, src_end)` byte indices of
`frame[dst_start..dst_end].copy_from_slice(&tile_pixels[src_start..src_end])`. -/
def copy_tile_copies (c : AppConfig) (tile_idx : ℕ) : List (ℕ × ℕ × ℕ × ℕ) :=
  let bnds := get_tile_bounds c tile_idx
  let x_min := bnds.1
  let y_min := bnds.2.1
  let y_max := bnds.2.2.2
  (List.range' y_min (y_max - y_min)).map fun y =>
    let dst_start := (y * c.width + x_min) % U32 * COLOR_CHANNELS
    let dst_end := dst_start + c.tile_size * COLOR_CHANNELS
    let src_start := (y - y_min) * c.tile_size * COLOR_CHANNELS
    let src_end := src_start + c.tile_size * COLOR_CHANNELS
    (dst_start, dst_end, src_start, src_end)

/-- Whether merging tile `tile_idx` writes the frame-buffer byte `b`
(`main.rs` merge). -/
def writesByte (c : AppConfig) (tile_idx b : ℕ) : Bool :=
  (copy_tile_copies c tile_idx).any fun cp =>
    decide (cp.1 ≤ b) && decide (b < cp.2.1)

/-- `message_thread` in `main.rs`, abstracted over the sequence of
`try_send` outcomes the channel produces: the loop retries on `Full` and
stops at the first `Ok` (message delivered) or `Disconnected` (treated as
success).  `none` models the loop still spinning after the whole outcome
sequence (a channel that stays full). -/
def message_thread : List SendOutcome → Option SendOutcome
  | [] => none
  | o :: rest => if o = SendOutcome.full then message_thread rest else some o

/-- Recursion of `queue_tiles`, tracking the iteration index used to look
up the result of the non-blocking stop check. -/
def queue_tilesGo (stop : ℕ → Bool) : ℕ → List ℕ → List ℕ
  | _, [] => []
  | i, t :: rest => if stop i then [] else t :: queue_tilesGo stop (i + 1) rest

/-- `queue_tiles` in `main.rs`, abstracted over the shuffled tile list and
over the per-iteration result of the non-blocking stop check
(`true` means a stop signal was present or the channel was disconnected):
returns the sequence of tile indices actually sent as `Process(..)`. -/
def queue_tiles (stop : ℕ → Bool) (tiles : List ℕ) : List ℕ :=
  queue_tilesGo stop 0 tiles

/-- `rand`'s `gen_range(lo..hi)` (exclusive range), abstracted over the
generator draw `r`; `none` models the panic on an empty range. -/
def gen_range (lo hi r : ℕ) : Option ℕ :=
  if lo < hi then some (lo + r % (hi - lo)) else none

/-- The simulated-load sleep duration chosen in `render_tile`:
`rng.gen_range(1..CONFIG.max_load_millis.get())`. -/
def sleep_millis (c : AppConfig) (r : ℕ) : Option ℕ :=
  gen_range 1 c.max_load_millis r

/-- The fill loop of `render_tile`: `chunks_mut(COLOR_CHANNELS)` writing
`pixel[0] = r, pixel[1] = g, pixel[2] = b, pixel[3] = 255`; `none` models
the panic `pixel[3]` would raise on a trailing chunk shorter than 4. -/
def fillChunks (r g b : ℕ) : List ℕ → Option (List ℕ)
  | [] => some []
  | _ :: _ :: _ :: _ :: rest =>
    (fillChunks r g b rest).map fun l => r :: g :: b :: 255 :: l
  | _ => none

/-- The `TilePixels { tile, pixels }` message `render_tile` in `main.rs`
produces for `Process(tile_idx)`, given the solid color `(r, g, b)` drawn
from the thread's generator; the buffer filled is
`vec![0_u8; CONFIG.tiles_pixel_bytes()]`. -/
def render_tile (c : AppConfig) (tile_idx r g b : ℕ) : Option (ℕ × List ℕ) :=
  (fillChunks r g b (List.replicate c.tiles_pixel_bytes 0)).map
    fun pixels => (tile_idx, pixels)

/-- The ordered list of destinations of the reliable sends performed by
`wait_for_exit` in `main.rs`, given how many stop messages ever arrive on
`stop_render_rx`: after the first received message it sends one `Stop`
each to the scheduler stop, redraw stop and work channels, one
`CopyTileMessage::Stop` per worker thread to the result channel, then one
completion message, and breaks out of its loop. -/
def wait_for_exit (c : AppConfig) (stop_signals : ℕ) : List Dest :=
  if stop_signals = 0 then []
  else
    [Dest.queue, Dest.redraw, Dest.work] ++
      List.replicate c.threads Dest.result ++ [Dest.done]

end MainRs

namespace AppRs

/-- `get_tile_bounds` in `app.rs`: clamps `min + tile_size - 1` to
`dim - 1`, so the maxima are always inclusive. -/
def get_tile_bounds (c : AppConfig) (tile_idx : ℕ) : ℕ × ℕ × ℕ × ℕ :=
  let tile_x := tile_idx % c.tiles_x
  let tile_y := tile_idx / c.tiles_x
  let y_min := tile_y * c.tile_size % U32
  let y_max0 := wsub ((y_min + c.tile_size) % U32) 1
  let y_max := if c.height - 1 < y_max0 then c.height - 1 else y_max0
  let x_min := tile_x * c.tile_size % U32
  let x_max0 := wsub ((x_min + c.tile_size) % U32) 1
  let x_max := if c.width - 1 < x_max0 then c.width - 1 else x_max0
  (x_min, y_min, x_max, y_max)

/-- The row copies performed by `copy_tile` in `app.rs`: for each `y` in
`y_min..=y_max` (inclusive; empty when `y_max < y_min`), the
`(dst_start, dst_end, src_start, src_end)` byte indices, with the row
byte width `tw = x_max - x_min + 1` pixels. -/
def copy_tile_copies (c : AppConfig) (tile_idx : ℕ) : List (ℕ × ℕ × ℕ × ℕ) :=
  let bnds := get_tile_bounds c tile_idx
  let x_min := bnds.1
  let y_min := bnds.2.1
  let x_max := bnds.2.2.1
  let y_max := bnds.2.2.2
  let tw := (wsub x_max x_min + 1) % U32
  let rows := if y_max < y_min then 0 else y_max - y_min + 1
  (List.range' y_min rows).map fun y =>
    let dst_start := (y * c.width + x_min) % U32 * COLOR_CHANNELS
    let dst_end := dst_start + tw * COLOR_CHANNELS
    let src_start := (y - y_min) * c.tile_size * COLOR_CHANNELS
    let src_end := src_start + tw * COLOR_CHANNELS
    (dst_start, dst_end, src_start, src_end)

end AppRs

/-! ### Concrete configurations -/

/-- The spec's concrete scenario: `width=64, height=64, tile_size=32`,
two workers. -/
def cfg64 : AppConfig := ⟨64, 64, 2, 32, 100⟩

/-- `width = 2 ^ 24 + 1` with `tile_size = 1`: the first width whose `f32`
conversion is inexact (ties down to `2 ^ 24`). -/
def cfg_wide1 : AppConfig := ⟨16777217, 1, 1, 1, 100⟩

/-- `width = 2 ^ 24 + 3` with `tile_size = 1`: its `f32` conversion ties
up to `2 ^ 24 + 4`, so `tiles_x` overcounts. -/
def cfg_wide3 : AppConfig := ⟨16777219, 1, 1, 1, 100⟩

/-- A clipped configuration: `width=1, height=3, tile_size=3`. -/
def cfg_thin : AppConfig := ⟨1, 3, 1, 3, 100⟩

/-- A configuration with `max_load_millis = 1` (legal for `NonZeroU64`). -/
def cfg_lat1 : AppConfig := ⟨512, 512, 1, 32, 1⟩

/-! ### Facts about `natLog2` -/

lemma log2fuel_spec : ∀ fuel n, 1 ≤ n → n ≤ 2 ^ fuel →
    2 ^ log2fuel fuel n ≤ n ∧ n < 2 ^ (log2fuel fuel n + 1) := by
  intro fuel
  induction fuel with
  | zero =>
    intro n h1 h2
    interval_cases n
    simp [log2fuel]
  | succ fuel ih =>
    intro n h1 h2
    rw [log2fuel]
    by_cases hn : n < 2
    · interval_cases n
      norm_num
    · rw [if_neg hn]
      have hm1 : 1 ≤ n / 2 := Nat.one_le_div_iff (by norm_num) |>.2 (by omega)
      have hm2 : n / 2 ≤ 2 ^ fuel := by
        rw [Nat.div_le_iff_le_mul_add_pred (by norm_num)]
        rw [pow_succ] at h2
        omega
      obtain ⟨hlo, hhi⟩ := ih (n / 2) hm1 hm2
      constructor
      · rw [pow_succ]
        have := Nat.div_mul_le_self n 2
        calc 2 ^ log2fuel fuel (n / 2) * 2 ≤ n / 2 * 2 := by
              exact Nat.mul_le_mul_right 2 hlo
          _ ≤ n := Nat.div_mul_le_self n 2
      · have hup : n < (n / 2 + 1) * 2 := by omega
        calc n < (n / 2 + 1) * 2 := hup
          _ ≤ 2 ^ (log2fuel fuel (n / 2) + 1) * 2 := by
              exact Nat.mul_le_mul_right 2 (by omega)
          _ = 2 ^ (log2fuel fuel (n / 2) + 1 + 1) := by ring

lemma natLog2_spec (n : ℕ) (h : 1 ≤ n) :
    2 ^ natLog2 n ≤ n ∧ n < 2 ^ (natLog2 n + 1) :=
  log2fuel_spec n n h (Nat.le_of_lt n.lt_two_pow)

/-- `natLog2` is characterized by its bracketing property. -/
lemma natLog2_eq (n L : ℕ) (h1 : 2 ^ L ≤ n) (h2 : n < 2 ^ (L + 1)) :
    natLog2 n = L := by
  have h : 1 ≤ n := le_trans (Nat.one_le_two_pow) h1
  obtain ⟨hlo, hhi⟩ := natLog2_spec n h
  by_contra hne
  rcases Nat.lt_or_ge (natLog2 n) L with hlt | hge
  · have : 2 ^ (natLog2 n + 1) ≤ 2 ^ L := Nat.pow_le_pow_right (by norm_num) hlt
    omega
  · have : L < natLog2 n := lt_of_le_of_ne hge (fun h => hne h.symm)
    have : 2 ^ (L + 1) ≤ 2 ^ natLog2 n := Nat.pow_le_pow_right (by norm_num) this
    omega

/-! ### Facts about `roundHE` -/

lemma roundHE_intCast (z : ℤ) : roundHE (z : ℚ) = z := by
  rw [roundHE, Int.fract_intCast]
  norm_num

lemma roundHE_le (x : ℚ) : (roundHE x : ℚ) ≤ x + 1 / 2 := by
  rw [roundHE]
  split_ifs with h1 h2
  · have := Int.floor_le x
    linarith
  · have hx : x = ⌊x⌋ + 1 / 2 := by
      have := Int.fract_add_floor x
      rw [Int.fract] at h1
      linarith
    push_cast
    linarith
  · have := abs_sub_round x
    rw [abs_le] at this
    linarith [this.2]

lemma le_roundHE (x : ℚ) : x - 1 / 2 ≤ (roundHE x : ℚ) := by
  rw [roundHE]
  split_ifs with h1 h2
  · have hx : x = ⌊x⌋ + 1 / 2 := by
      rw [Int.fract] at h1
      linarith
    linarith
  · have := Int.lt_floor_add_one x
    push_cast
    linarith
  · have := abs_sub_round x
    rw [abs_le] at this
    linarith [this.1]

/-! ### Exactness of the binary32 model on the values reached by `tiles_x` -/

lemma f32ulp_pos (q : ℚ) : 0 < f32ulp q := by
  rw [f32ulp]
  positivity

lemma f32RNE_bounds (q : ℚ) (h1 : 1 ≤ q) :
    q - f32ulp q / 2 ≤ f32RNE q ∧ f32RNE q ≤ q + f32ulp q / 2 := by
  rw [f32RNE, if_neg (by linarith : ¬ q < 1)]
  have hu := f32ulp_pos q
  have hle := roundHE_le (q / f32ulp q)
  have hge := le_roundHE (q / f32ulp q)
  constructor
  · have := mul_le_mul_of_nonneg_right hge (le_of_lt hu)
    rw [sub_mul, div_mul_cancel₀ _ (ne_of_gt hu)] at this
    linarith
  · have := mul_le_mul_of_nonneg_right hle (le_of_lt hu)
    rw [add_mul, div_mul_cancel₀ _ (ne_of_gt hu)] at this
    linarith

lemma f32RNE_exact (q : ℚ) (h1 : 1 ≤ q) (z : ℤ) (hz : q = z * f32ulp q) :
    f32RNE q = q := by
  rw [f32RNE, if_neg (by linarith : ¬ q < 1)]
  have hu := f32ulp_pos q
  have hx : q / f32ulp q = (z : ℚ) := (div_eq_iff (ne_of_gt hu)).2 hz
  rw [hx, roundHE_intCast, ← hz]

lemma f32RNE_zero : f32RNE 0 = 0 := by
  rw [f32RNE, if_pos (by norm_num)]

/-- The floor of `(n : ℚ) / t` as `Int.toNat`, in terms of `Nat` division. -/
lemma toNat_floor_natCast_div (n t : ℕ) :
    (⌊(n : ℚ) / (t : ℚ)⌋).toNat = n / t := by
  rw [Int.floor_toNat, Nat.floor_div_nat, Nat.floor_natCast]

/-- The `ulp` of an integer value. -/
lemma f32ulp_natCast (n : ℕ) :
    f32ulp (n : ℚ) = (2 ^ natLog2 n : ℚ) / 2 ^ 23 := by
  rw [f32ulp, Int.floor_natCast, Int.toNat_natCast]

/-- Rounding an integer `1 ≤ n ≤ 2 ^ 24` to binary32 is exact. -/
lemma f32RNE_natCast (n : ℕ) (h1 : 1 ≤ n) (h2 : n ≤ 2 ^ 24) :
    f32RNE (n : ℚ) = n := by
  have hu := f32ulp_natCast n
  obtain ⟨hlo, hhi⟩ := natLog2_spec n h1
  rcases Nat.lt_or_ge (natLog2 n) 24 with hlt | hge
  · -- `natLog2 n ≤ 23`: `n = (n * 2 ^ (23 - natLog2 n)) * ulp` exactly
    have hL23 : natLog2 n ≤ 23 := by omega
    refine f32RNE_exact _ (by exact_mod_cast h1) ((n : ℤ) * 2 ^ (23 - natLog2 n)) ?_
    rw [hu]
    push_cast
    have hpow : (2:ℚ) ^ (23 - natLog2 n) * 2 ^ natLog2 n = 2 ^ 23 := by
      rw [← pow_add]
      congr 1
      omega
    have hre : ((n:ℚ) * 2 ^ (23 - natLog2 n)) * ((2:ℚ) ^ natLog2 n / 2 ^ 23) =
        (n:ℚ) * ((2:ℚ) ^ (23 - natLog2 n) * 2 ^ natLog2 n) / 2 ^ 23 := by
      ring
    rw [hre, hpow, mul_div_cancel_right₀ _ (by positivity : ((2:ℚ) ^ 23) ≠ 0)]
  · -- `natLog2 n = 24` forces `n = 2 ^ 24`
    have h25 : (2:ℕ) ^ 24 ≤ 2 ^ natLog2 n := Nat.pow_le_pow_right (by norm_num) hge
    have hle24 : natLog2 n ≤ 24 := by
      by_contra hgt
      have : (2:ℕ) ^ 25 ≤ 2 ^ natLog2 n := Nat.pow_le_pow_right (by norm_num) (by omega)
      have h24 : (2:ℕ) ^ 25 = 33554432 := by norm_num
      have h24' : (2:ℕ) ^ 24 = 16777216 := by norm_num
      omega
    have hL : natLog2 n = 24 := by omega
    have hn : n = 2 ^ 24 := by
      rw [hL] at hlo
      have h24 : (2:ℕ) ^ 24 = 16777216 := by norm_num
      omega
    refine f32RNE_exact _ (by exact_mod_cast h1) (2 ^ 23) ?_
    rw [hu, hL, hn]
    push_cast
    norm_num


/-- The two-sided bound that pins down the floor of the binary32 quotient
`n / t` for `t ≤ n ≤ 2 ^ 24`: rounding the exact quotient to binary32
never crosses an integer boundary. -/
lemma f32RNE_div_bounds (n t : ℕ) (ht : 1 ≤ t) (htn : t ≤ n) (h24 : n ≤ 2 ^ 24) :
    ((n / t : ℕ) : ℚ) ≤ f32RNE ((n : ℚ) / (t : ℚ)) ∧
      f32RNE ((n : ℚ) / (t : ℚ)) < ((n / t : ℕ) : ℚ) + 1 := by
  have htq : (0 : ℚ) < (t : ℚ) := by exact_mod_cast ht
  have h1 : (1 : ℚ) ≤ (n : ℚ) / (t : ℚ) := by
    rw [le_div_iff htq, one_mul]
    exact_mod_cast htn
  have hk1 : 1 ≤ n / t := (Nat.one_le_div_iff (by omega)).2 htn
  have hkn : n / t ≤ n := Nat.div_le_self n t
  by_cases hdvd : t ∣ n
  · -- integer quotient `≤ 2 ^ 24`: exactly representable
    have hnk : n / t * t = n := Nat.div_mul_cancel hdvd
    have hq : (n : ℚ) / (t : ℚ) = ((n / t : ℕ) : ℚ) := by
      rw [eq_comm, eq_div_iff (ne_of_gt htq)]
      exact_mod_cast hnk
    rw [hq, f32RNE_natCast (n / t) hk1 (le_trans hkn h24)]
    exact ⟨le_refl _, by linarith⟩
  · -- non-integer quotient: the rounding error is below the distance to
    -- the neighbouring integers
    have hs1 : 1 ≤ n % t :=
      Nat.one_le_iff_ne_zero.2 fun h0 => hdvd (Nat.dvd_of_mod_eq_zero h0)
    have hkeq : t * (n / t) + n % t = n := Nat.div_add_mod n t
    have hmodlt : n % t < t := Nat.mod_lt n (by omega)
    have h1t : (0 : ℚ) < 1 / (t : ℚ) := by positivity
    have hqlo : ((n / t : ℕ) : ℚ) + 1 / t ≤ (n : ℚ) / t := by
      have hn1 : t * (n / t) + 1 ≤ n := by omega
      have hn1q : (t : ℚ) * ((n / t : ℕ) : ℚ) + 1 ≤ (n : ℚ) := by exact_mod_cast hn1
      apply (le_div_iff htq).2
      rw [add_mul, div_mul_cancel₀ _ (ne_of_gt htq)]
      linarith
    have hqhi : (n : ℚ) / t ≤ ((n / t : ℕ) : ℚ) + 1 - 1 / t := by
      have hn2 : n + 1 ≤ t * (n / t) + t := by omega
      have hn2q : (n : ℚ) + 1 ≤ (t : ℚ) * ((n / t : ℕ) : ℚ) + t := by exact_mod_cast hn2
      apply (div_le_iff htq).2
      rw [sub_mul, add_mul, div_mul_cancel₀ _ (ne_of_gt htq), one_mul]
      linarith
    have hm : (⌊(n : ℚ) / (t : ℚ)⌋).toNat = n / t := toNat_floor_natCast_div n t
    have hu : f32ulp ((n : ℚ) / (t : ℚ)) = (2 ^ natLog2 (n / t) : ℚ) / 2 ^ 23 := by
      rw [f32ulp, hm]
    obtain ⟨hlo, hhi⟩ := natLog2_spec (n / t) hk1
    have hLt : 2 ^ natLog2 (n / t) * t ≤ n := (Nat.le_div_iff_mul_le (by omega)).1 hlo
    obtain ⟨hblo, hbhi⟩ := f32RNE_bounds _ h1
    have hul : f32ulp ((n : ℚ) / (t : ℚ)) / 2 ≤ 1 / t := by
      rw [hu, div_div]
      have h224 : ((2 : ℚ) ^ 23) * 2 = 2 ^ 24 := by norm_num
      rw [h224, div_le_div_iff (by positivity) htq, one_mul]
      have hc : ((2 ^ natLog2 (n / t) * t : ℕ) : ℚ) ≤ ((2 ^ 24 : ℕ) : ℚ) := by
        exact_mod_cast le_trans hLt h24
      push_cast at hc
      linarith
    constructor
    · linarith
    · by_cases hpow : ∃ j, t = 2 ^ j
      · -- the divisor is a power of two: the quotient is exactly representable
        obtain ⟨j, rfl⟩ := hpow
        have hne24 : n ≠ 2 ^ 24 := by
          intro hn24
          have hj24 : j ≤ 24 := by
            by_contra hj
            have h25 : (2 : ℕ) ^ 25 ≤ 2 ^ j := Nat.pow_le_pow_right (by norm_num) (by omega)
            have h2n : (2 : ℕ) ^ j ≤ n := htn
            have hx : (2 : ℕ) ^ 25 = 33554432 := by norm_num
            have hy : (2 : ℕ) ^ 24 = 16777216 := by norm_num
            omega
          exact hdvd (hn24 ▸ pow_dvd_pow 2 hj24)
        have hn24' : n < 2 ^ 24 := lt_of_le_of_ne h24 hne24
        have hLj : natLog2 (n / 2 ^ j) + j ≤ 23 := by
          have hle : 2 ^ (natLog2 (n / 2 ^ j) + j) ≤ n := by
            rw [pow_add]
            exact hLt
          by_contra hgt
          have h24le : (2 : ℕ) ^ 24 ≤ 2 ^ (natLog2 (n / 2 ^ j) + j) :=
            Nat.pow_le_pow_right (by norm_num) (by omega)
          omega
        have hq_exact :
            f32RNE ((n : ℚ) / ((2 ^ j : ℕ) : ℚ)) = (n : ℚ) / ((2 ^ j : ℕ) : ℚ) := by
          apply f32RNE_exact _ h1
            ((n : ℤ) * 2 ^ (23 - (natLog2 (n / 2 ^ j) + j)))
          rw [hu]
          push_cast
          rw [div_eq_iff (by positivity : ((2 : ℚ) ^ j) ≠ 0)]
          have hr :
              (n : ℚ) * 2 ^ (23 - (natLog2 (n / 2 ^ j) + j)) *
                  ((2 : ℚ) ^ natLog2 (n / 2 ^ j) / 2 ^ 23) * 2 ^ j =
                (n : ℚ) *
                  ((2 : ℚ) ^ (23 - (natLog2 (n / 2 ^ j) + j)) *
                    2 ^ natLog2 (n / 2 ^ j) * 2 ^ j) / 2 ^ 23 := by
            ring
          have hA :
              (2 : ℚ) ^ (23 - (natLog2 (n / 2 ^ j) + j)) *
                  2 ^ natLog2 (n / 2 ^ j) * 2 ^ j = 2 ^ 23 := by
            rw [← pow_add, ← pow_add]
            congr 1
            omega
          rw [hr, hA, mul_div_cancel_right₀ _ (by positivity : ((2 : ℚ) ^ 23) ≠ 0)]
        rw [hq_exact]
        linarith
      · -- not a power of two: the half-ulp is strictly below `1 / t`
        have hne : 2 ^ natLog2 (n / t) * t ≠ 2 ^ 24 := by
          intro heq
          apply hpow
          refine ⟨24 - natLog2 (n / t), ?_⟩
          have hL24 : natLog2 (n / t) ≤ 24 := by
            by_contra hL
            have h25 : (2 : ℕ) ^ 25 ≤ 2 ^ natLog2 (n / t) :=
              Nat.pow_le_pow_right (by norm_num) (by omega)
            have h2L : 2 ^ natLog2 (n / t) ≤ 2 ^ natLog2 (n / t) * t :=
              Nat.le_mul_of_pos_right _ (by omega)
            have hx : (2 : ℕ) ^ 25 = 33554432 := by norm_num
            have hy : (2 : ℕ) ^ 24 = 16777216 := by norm_num
            omega
          have hsplit : 2 ^ natLog2 (n / t) * 2 ^ (24 - natLog2 (n / t)) = 2 ^ 24 := by
            rw [← pow_add]
            congr 1
            omega
          have h2L : 0 < 2 ^ natLog2 (n / t) := Nat.pos_pow_of_pos _ (by norm_num)
          apply Nat.eq_of_mul_eq_mul_left h2L
          rw [hsplit, heq]
        have hstrict : 2 ^ natLog2 (n / t) * t < 2 ^ 24 :=
          lt_of_le_of_ne (le_trans hLt h24) hne
        have hul' : f32ulp ((n : ℚ) / (t : ℚ)) / 2 < 1 / t := by
          rw [hu, div_div]
          have h224 : ((2 : ℚ) ^ 23) * 2 = 2 ^ 24 := by norm_num
          rw [h224, div_lt_div_iff (by positivity) htq, one_mul]
          have hc : ((2 ^ natLog2 (n / t) * t : ℕ) : ℚ) < ((2 ^ 24 : ℕ) : ℚ) := by
            exact_mod_cast hstrict
          push_cast at hc
          linarith
        linarith

/-- Casting an integer `≤ 2 ^ 24` through the model's `f32` conversion is
the identity (this includes `0`). -/
lemma f32ofNat_eval (m : ℕ) (h : m ≤ 2 ^ 24) : f32ofNat m = (m : ℚ) := by
  rcases Nat.eq_zero_or_pos m with h0 | h1
  · rw [h0, f32ofNat, Nat.cast_zero, f32RNE_zero]
  · rw [f32ofNat, f32RNE_natCast m h1 h]

/-- Truncating the binary32 quotient `n / t` to `u32` yields exactly the
`Nat` ceiling-division numerator `n / t`, for `t ≤ n ≤ 2 ^ 24`. -/
lemma f32toU32_div_exact (n t : ℕ) (ht : 1 ≤ t) (htn : t ≤ n) (h24 : n ≤ 2 ^ 24) :
    f32toU32 (f32div (n : ℚ) (t : ℚ)) = n / t := by
  obtain ⟨hlo, hhi⟩ := f32RNE_div_bounds n t ht htn h24
  have hfl : ⌊f32RNE ((n : ℚ) / (t : ℚ))⌋ = ((n / t : ℕ) : ℤ) := by
    rw [Int.floor_eq_iff]
    constructor
    · exact_mod_cast hlo
    · push_cast
      exact hhi
  rw [f32toU32, f32div, hfl, Int.toNat_natCast]
  apply min_eq_right
  have h1 : n / t ≤ n := Nat.div_le_self n t
  have h2 : (2 : ℕ) ^ 24 ≤ 2 ^ 32 - 1 := by norm_num
  omega

/-- The full `tiles_x`-shaped expression computes exact ceiling division
whenever `w + ts - 1` fits in 24 bits. -/
lemma f32ceilDiv_exact (w ts : ℕ) (hw : 1 ≤ w) (hts : 1 ≤ ts)
    (hb : w + ts - 1 ≤ 2 ^ 24) :
    f32toU32 (f32div (f32add (f32ofNat w) (f32ofNat (ts - 1))) (f32ofNat ts)) =
      (w + ts - 1) / ts := by
  have hn : w + (ts - 1) = w + ts - 1 := by omega
  have hw24 : w ≤ 2 ^ 24 := by omega
  have hts24 : ts ≤ 2 ^ 24 := by omega
  have htm24 : ts - 1 ≤ 2 ^ 24 := by omega
  rw [f32ofNat_eval w hw24, f32ofNat_eval (ts - 1) htm24, f32ofNat_eval ts hts24]
  have hadd : f32add (w : ℚ) ((ts - 1 : ℕ) : ℚ) = ((w + ts - 1 : ℕ) : ℚ) := by
    rw [f32add]
    have hc : (w : ℚ) + ((ts - 1 : ℕ) : ℚ) = ((w + ts - 1 : ℕ) : ℚ) := by
      rw [← hn]
      push_cast
      ring
    rw [hc, f32RNE_natCast (w + ts - 1) (by omega) hb]
  rw [hadd]
  exact f32toU32_div_exact (w + ts - 1) ts hts (by omega) hb

/-- `AppConfig::tiles_x()` computes `⌈width / tile_size⌉` exactly when
`width + tile_size - 1 ≤ 2 ^ 24`. -/
lemma AppConfig.tiles_x_exact (c : AppConfig) (hw : 1 ≤ c.width)
    (hts : 1 ≤ c.tile_size) (hb : c.width + c.tile_size - 1 ≤ 2 ^ 24) :
    c.tiles_x = (c.width + c.tile_size - 1) / c.tile_size :=
  f32ceilDiv_exact c.width c.tile_size hw hts hb

/-- `AppConfig::tiles_y()` computes `⌈height / tile_size⌉` exactly when
`height + tile_size - 1 ≤ 2 ^ 24`. -/
lemma AppConfig.tiles_y_exact (c : AppConfig) (hh : 1 ≤ c.height)
    (hts : 1 ≤ c.tile_size) (hb : c.height + c.tile_size - 1 ≤ 2 ^ 24) :
    c.tiles_y = (c.height + c.tile_size - 1) / c.tile_size :=
  f32ceilDiv_exact c.height c.tile_size hh hts hb

/-- `AppConfig::tiles()` is the exact product of the two ceiling divisions
when both dimensions are in the exact range and the product fits `u32`. -/
lemma AppConfig.tiles_exact (c : AppConfig) (hw : 1 ≤ c.width) (hh : 1 ≤ c.height)
    (hts : 1 ≤ c.tile_size) (hbw : c.width + c.tile_size - 1 ≤ 2 ^ 24)
    (hbh : c.height + c.tile_size - 1 ≤ 2 ^ 24)
    (hprod : (c.width + c.tile_size - 1) / c.tile_size *
      ((c.height + c.tile_size - 1) / c.tile_size) < 2 ^ 32) :
    c.tiles = (c.width + c.tile_size - 1) / c.tile_size *
      ((c.height + c.tile_size - 1) / c.tile_size) := by
  rw [AppConfig.tiles, AppConfig.tiles_x_exact c hw hts hbw,
    AppConfig.tiles_y_exact c hh hts hbh, U32, Nat.mod_eq_of_lt hprod]

/-! ### Tile-bounds arithmetic under in-range configurations -/

/-- A tile coordinate below the exact tile count starts inside the image:
`k < ⌈d / ts⌉` implies `k * ts ≤ d - 1`. -/
lemma tile_coord_le (d ts k : ℕ) (hd1 : 1 ≤ d) (hts1 : 1 ≤ ts)
    (hk : k < (d + ts - 1) / ts) : k * ts ≤ d - 1 := by
  have hq : (d + ts - 1) / ts * ts ≤ d + ts - 1 := Nat.div_mul_le_self _ _
  have hk' : k + 1 ≤ (d + ts - 1) / ts := hk
  have hmul : (k + 1) * ts ≤ (d + ts - 1) / ts * ts := Nat.mul_le_mul_right _ hk'
  rw [add_mul, one_mul] at hmul
  omega

lemma wsub_one (a : ℕ) (h1 : 1 ≤ a) (h2 : a < U32) : wsub a 1 = a - 1 := by
  have hU : U32 = 4294967296 := by norm_num [U32]
  rw [hU] at h2
  rw [wsub, hU]
  omega

/-- `1 ≤ ⌈d / ts⌉` for a nonzero dimension. -/
lemma one_le_ceil_div (d ts : ℕ) (hd1 : 1 ≤ d) (hts1 : 1 ≤ ts) :
    1 ≤ (d + ts - 1) / ts :=
  (Nat.one_le_div_iff (by omega)).2 (by omega)

/-- Under an in-range configuration, the `main.rs` tile bounds evaluate
with no `u32` wrap-around. -/
lemma MainRs.main_bounds_eval (c : AppConfig) (hw1 : 1 ≤ c.width)
    (hh1 : 1 ≤ c.height) (hts1 : 1 ≤ c.tile_size)
    (hbw : c.width + c.tile_size - 1 ≤ 2 ^ 24)
    (hbh : c.height + c.tile_size - 1 ≤ 2 ^ 24)
    (t : ℕ) (ht : t < c.tiles) :
    MainRs.get_tile_bounds c t =
      (t % c.tiles_x * c.tile_size,
       t / c.tiles_x * c.tile_size,
       if c.width - 1 < t % c.tiles_x * c.tile_size + c.tile_size then c.width - 1
         else t % c.tiles_x * c.tile_size + c.tile_size,
       if c.height - 1 < t / c.tiles_x * c.tile_size + c.tile_size then c.height - 1
         else t / c.tiles_x * c.tile_size + c.tile_size) := by
  have htx := AppConfig.tiles_x_exact c hw1 hts1 hbw
  have hty := AppConfig.tiles_y_exact c hh1 hts1 hbh
  have hTX1 : 1 ≤ c.tiles_x := by
    rw [htx]
    exact one_le_ceil_div _ _ hw1 hts1
  have hkx : t % c.tiles_x < c.tiles_x := Nat.mod_lt _ (by omega)
  have hky : t / c.tiles_x < c.tiles_y := by
    have h1 : c.tiles ≤ c.tiles_x * c.tiles_y := by
      rw [AppConfig.tiles]
      exact Nat.mod_le _ _
    exact (Nat.div_lt_iff_lt_mul (by omega)).2
      (by calc t < c.tiles := ht
            _ ≤ c.tiles_x * c.tiles_y := h1
            _ = c.tiles_y * c.tiles_x := Nat.mul_comm _ _)
  have hxmin : t % c.tiles_x * c.tile_size ≤ c.width - 1 := by
    apply tile_coord_le _ _ _ hw1 hts1
    rw [← htx]
    exact hkx
  have hymin : t / c.tiles_x * c.tile_size ≤ c.height - 1 := by
    apply tile_coord_le _ _ _ hh1 hts1
    rw [← hty]
    exact hky
  have hU : U32 = 4294967296 := by norm_num [U32]
  have hm1 : t % c.tiles_x * c.tile_size % U32 = t % c.tiles_x * c.tile_size :=
    Nat.mod_eq_of_lt (by omega)
  have hm2 : t / c.tiles_x * c.tile_size % U32 = t / c.tiles_x * c.tile_size :=
    Nat.mod_eq_of_lt (by omega)
  simp only [MainRs.get_tile_bounds, hm1, hm2]
  have hm3 : (t % c.tiles_x * c.tile_size + c.tile_size) % U32 =
      t % c.tiles_x * c.tile_size + c.tile_size := Nat.mod_eq_of_lt (by omega)
  have hm4 : (t / c.tiles_x * c.tile_size + c.tile_size) % U32 =
      t / c.tiles_x * c.tile_size + c.tile_size := Nat.mod_eq_of_lt (by omega)
  rw [hm3, hm4]

/-- Under an in-range configuration, the `app.rs` tile bounds evaluate
with no `u32` wrap-around. -/
lemma AppRs.app_bounds_eval (c : AppConfig) (hw1 : 1 ≤ c.width)
    (hh1 : 1 ≤ c.height) (hts1 : 1 ≤ c.tile_size)
    (hbw : c.width + c.tile_size - 1 ≤ 2 ^ 24)
    (hbh : c.height + c.tile_size - 1 ≤ 2 ^ 24)
    (t : ℕ) (ht : t < c.tiles) :
    AppRs.get_tile_bounds c t =
      (t % c.tiles_x * c.tile_size,
       t / c.tiles_x * c.tile_size,
       if c.width - 1 < t % c.tiles_x * c.tile_size + c.tile_size - 1 then c.width - 1
         else t % c.tiles_x * c.tile_size + c.tile_size - 1,
       if c.height - 1 < t / c.tiles_x * c.tile_size + c.tile_size - 1 then c.height - 1
         else t / c.tiles_x * c.tile_size + c.tile_size - 1) := by
  have htx := AppConfig.tiles_x_exact c hw1 hts1 hbw
  have hty := AppConfig.tiles_y_exact c hh1 hts1 hbh
  have hTX1 : 1 ≤ c.tiles_x := by
    rw [htx]
    exact one_le_ceil_div _ _ hw1 hts1
  have hkx : t % c.tiles_x < c.tiles_x := Nat.mod_lt _ (by omega)
  have hky : t / c.tiles_x < c.tiles_y := by
    have h1 : c.tiles ≤ c.tiles_x * c.tiles_y := by
      rw [AppConfig.tiles]
      exact Nat.mod_le _ _
    exact (Nat.div_lt_iff_lt_mul (by omega)).2
      (by calc t < c.tiles := ht
            _ ≤ c.tiles_x * c.tiles_y := h1
            _ = c.tiles_y * c.tiles_x := Nat.mul_comm _ _)
  have hxmin : t % c.tiles_x * c.tile_size ≤ c.width - 1 := by
    apply tile_coord_le _ _ _ hw1 hts1
    rw [← htx]
    exact hkx
  have hymin : t / c.tiles_x * c.tile_size ≤ c.height - 1 := by
    apply tile_coord_le _ _ _ hh1 hts1
    rw [← hty]
    exact hky
  have hU : U32 = 4294967296 := by norm_num [U32]
  have hm1 : t % c.tiles_x * c.tile_size % U32 = t % c.tiles_x * c.tile_size :=
    Nat.mod_eq_of_lt (by omega)
  have hm2 : t / c.tiles_x * c.tile_size % U32 = t / c.tiles_x * c.tile_size :=
    Nat.mod_eq_of_lt (by omega)
  simp only [AppRs.get_tile_bounds, hm1, hm2]
  have hm3 : (t % c.tiles_x * c.tile_size + c.tile_size) % U32 =
      t % c.tiles_x * c.tile_size + c.tile_size := Nat.mod_eq_of_lt (by omega)
  have hm4 : (t / c.tiles_x * c.tile_size + c.tile_size) % U32 =
      t / c.tiles_x * c.tile_size + c.tile_size := Nat.mod_eq_of_lt (by omega)
  rw [hm3, hm4, wsub_one _ (by omega) (by omega), wsub_one _ (by omega) (by omega)]

/-! ### Concrete binary32 evaluations around `2 ^ 24` -/

lemma f32RNE_pow24_add1 : f32RNE (16777217 : ℚ) = 16777216 := by
  have hfl : (⌊(16777217 : ℚ)⌋).toNat = 16777217 := by
    rw [show ⌊(16777217 : ℚ)⌋ = 16777217 by norm_num]
    rfl
  have hL : natLog2 ((⌊(16777217 : ℚ)⌋).toNat) = 24 := by
    rw [hfl]
    exact natLog2_eq _ 24 (by norm_num) (by norm_num)
  rw [f32RNE, if_neg (by norm_num), f32ulp, hL]
  have hx : (16777217 : ℚ) / ((2 ^ 24 : ℚ) / 2 ^ 23) = 16777217 / 2 := by norm_num
  rw [hx, roundHE]
  have hfl2 : ⌊(16777217 : ℚ) / 2⌋ = 8388608 := by norm_num
  have hfr : Int.fract ((16777217 : ℚ) / 2) = 1 / 2 := by
    rw [Int.fract, hfl2]
    norm_num
  rw [if_pos hfr, hfl2, if_pos (by norm_num)]
  norm_num

lemma f32RNE_pow24_add3 : f32RNE (16777219 : ℚ) = 16777220 := by
  have hfl : (⌊(16777219 : ℚ)⌋).toNat = 16777219 := by
    rw [show ⌊(16777219 : ℚ)⌋ = 16777219 by norm_num]
    rfl
  have hL : natLog2 ((⌊(16777219 : ℚ)⌋).toNat) = 24 := by
    rw [hfl]
    exact natLog2_eq _ 24 (by norm_num) (by norm_num)
  rw [f32RNE, if_neg (by norm_num), f32ulp, hL]
  have hx : (16777219 : ℚ) / ((2 ^ 24 : ℚ) / 2 ^ 23) = 16777219 / 2 := by norm_num
  rw [hx, roundHE]
  have hfl2 : ⌊(16777219 : ℚ) / 2⌋ = 8388609 := by norm_num
  have hfr : Int.fract ((16777219 : ℚ) / 2) = 1 / 2 := by
    rw [Int.fract, hfl2]
    norm_num
  rw [if_pos hfr, hfl2, if_neg (by decide)]
  norm_num

lemma f32RNE_16777220 : f32RNE (16777220 : ℚ) = 16777220 := by
  have h := f32RNE_exact (16777220 : ℚ) (by norm_num) 8388610 ?_
  · exact h
  · have hfl : (⌊(16777220 : ℚ)⌋).toNat = 16777220 := by
      rw [show ⌊(16777220 : ℚ)⌋ = 16777220 by norm_num]
      rfl
    have hL : natLog2 ((⌊(16777220 : ℚ)⌋).toNat) = 24 := by
      rw [hfl]
      exact natLog2_eq _ 24 (by norm_num) (by norm_num)
    rw [f32ulp, hL]
    norm_num

lemma f32RNE_one_lit : f32RNE (1 : ℚ) = 1 := by
  have h := f32RNE_natCast 1 (by norm_num) (by norm_num)
  push_cast at h
  exact h

/-- Evaluation of `tiles_x` for a `tile_size = 1` configuration in terms
of the rounded width value. -/
lemma tiles_x_ts1 (w h nt ml v : ℕ) (hval : f32RNE ((w : ℕ) : ℚ) = ((v : ℕ) : ℚ))
    (hidem : f32RNE ((v : ℕ) : ℚ) = ((v : ℕ) : ℚ)) (hv32 : v ≤ 2 ^ 32 - 1) :
    (⟨w, h, nt, 1, ml⟩ : AppConfig).tiles_x = v := by
  show f32toU32 (f32div (f32add (f32ofNat w) (f32ofNat (1 - 1))) (f32ofNat 1)) = v
  rw [show (1 : ℕ) - 1 = 0 from rfl]
  rw [f32ofNat, f32ofNat, f32ofNat, Nat.cast_zero, f32RNE_zero, hval, Nat.cast_one,
    f32RNE_one_lit, f32add, add_zero, hidem, f32div, div_one, hidem, f32toU32,
    Int.floor_natCast, Int.toNat_natCast]
  exact min_eq_right hv32

/-! ### Per-configuration tile counts -/

lemma tiles_x_cfg64 : cfg64.tiles_x = 2 := by
  have h := AppConfig.tiles_x_exact cfg64 (by decide) (by decide) (by decide)
  norm_num [cfg64] at h
  exact h

lemma tiles_y_cfg64 : cfg64.tiles_y = 2 := by
  have h := AppConfig.tiles_y_exact cfg64 (by decide) (by decide) (by decide)
  norm_num [cfg64] at h
  exact h

lemma tiles_cfg64 : AppConfig.tiles cfg64 = 4 := by
  rw [AppConfig.tiles, tiles_x_cfg64, tiles_y_cfg64]
  decide

lemma tiles_x_cfg_thin : cfg_thin.tiles_x = 1 := by
  have h := AppConfig.tiles_x_exact cfg_thin (by decide) (by decide) (by decide)
  norm_num [cfg_thin] at h
  exact h

lemma tiles_y_cfg_thin : cfg_thin.tiles_y = 1 := by
  have h := AppConfig.tiles_y_exact cfg_thin (by decide) (by decide) (by decide)
  norm_num [cfg_thin] at h
  exact h

lemma tiles_cfg_thin : AppConfig.tiles cfg_thin = 1 := by
  rw [AppConfig.tiles, tiles_x_cfg_thin, tiles_y_cfg_thin]
  decide

lemma tiles_x_cfg_wide1 : cfg_wide1.tiles_x = 16777216 := by
  apply tiles_x_ts1
  · push_cast
    exact f32RNE_pow24_add1
  · exact f32RNE_natCast 16777216 (by norm_num) (by norm_num)
  · norm_num

lemma tiles_y_cfg_wide1 : cfg_wide1.tiles_y = 1 := by
  have h := AppConfig.tiles_y_exact cfg_wide1 (by decide) (by decide) (by decide)
  norm_num [cfg_wide1] at h
  exact h

lemma tiles_cfg_wide1 : AppConfig.tiles cfg_wide1 = 16777216 := by
  rw [AppConfig.tiles, tiles_x_cfg_wide1, tiles_y_cfg_wide1]
  decide

lemma tiles_x_cfg_wide3 : cfg_wide3.tiles_x = 16777220 := by
  apply tiles_x_ts1
  · push_cast
    exact f32RNE_pow24_add3
  · push_cast
    exact f32RNE_16777220
  · norm_num

lemma tiles_y_cfg_wide3 : cfg_wide3.tiles_y = 1 := by
  have h := AppConfig.tiles_y_exact cfg_wide3 (by decide) (by decide) (by decide)
  norm_num [cfg_wide3] at h
  exact h

lemma tiles_cfg_wide3 : AppConfig.tiles cfg_wide3 = 16777220 := by
  rw [AppConfig.tiles, tiles_x_cfg_wide3, tiles_y_cfg_wide3]
  decide

/-! ### Helper facts shared by the bounds theorems -/

lemma AppConfig.tiles_x_pos (c : AppConfig) (hw1 : 1 ≤ c.width)
    (hts1 : 1 ≤ c.tile_size) (hbw : c.width + c.tile_size - 1 ≤ 2 ^ 24) :
    1 ≤ c.tiles_x := by
  rw [AppConfig.tiles_x_exact c hw1 hts1 hbw]
  exact one_le_ceil_div _ _ hw1 hts1

lemma MainRs.x_min_le (c : AppConfig) (hw1 : 1 ≤ c.width)
    (hts1 : 1 ≤ c.tile_size) (hbw : c.width + c.tile_size - 1 ≤ 2 ^ 24) (t : ℕ) :
    t % c.tiles_x * c.tile_size ≤ c.width - 1 := by
  apply tile_coord_le _ _ _ hw1 hts1
  rw [← AppConfig.tiles_x_exact c hw1 hts1 hbw]
  exact Nat.mod_lt _ (by have := AppConfig.tiles_x_pos c hw1 hts1 hbw; omega)

lemma MainRs.y_min_le (c : AppConfig) (hw1 : 1 ≤ c.width) (hh1 : 1 ≤ c.height)
    (hts1 : 1 ≤ c.tile_size) (hbw : c.width + c.tile_size - 1 ≤ 2 ^ 24)
    (hbh : c.height + c.tile_size - 1 ≤ 2 ^ 24) (t : ℕ) (ht : t < c.tiles) :
    t / c.tiles_x * c.tile_size ≤ c.height - 1 := by
  have hTX1 := AppConfig.tiles_x_pos c hw1 hts1 hbw
  have hky : t / c.tiles_x < c.tiles_y := by
    have h1 : c.tiles ≤ c.tiles_x * c.tiles_y := by
      rw [AppConfig.tiles]
      exact Nat.mod_le _ _
    exact (Nat.div_lt_iff_lt_mul (by omega)).2
      (by calc t < c.tiles := ht
            _ ≤ c.tiles_x * c.tiles_y := h1
            _ = c.tiles_y * c.tiles_x := Nat.mul_comm _ _)
  apply tile_coord_le _ _ _ hh1 hts1
  rw [← AppConfig.tiles_y_exact c hh1 hts1 hbh]
  exact hky

/-! ### The claims -/

/-- **C3 counterexample**: for the valid configuration
`width = 2 ^ 24 + 1, height = 1, tile_size = 1`, `AppConfig::tiles()`
does not equal `⌈width / tile_size⌉ * ⌈height / tile_size⌉`: the `f32`
conversion of the width ties down to `2 ^ 24`, so the code returns
`16777216` instead of `16777217`. -/
theorem C3_tiles_f32_inexact :
    cfg_wide1.Valid ∧
      AppConfig.tiles cfg_wide1 ≠
        (cfg_wide1.width + cfg_wide1.tile_size - 1) / cfg_wide1.tile_size *
          ((cfg_wide1.height + cfg_wide1.tile_size - 1) / cfg_wide1.tile_size) := by
  refine ⟨by decide, ?_⟩
  rw [tiles_cfg_wide1]
  decide

/-- **C3 (amended)**: for every valid configuration whose dimensions
satisfy `width + tile_size - 1 ≤ 2 ^ 24` and
`height + tile_size - 1 ≤ 2 ^ 24` (so the `f32` arithmetic of
`tiles_x`/`tiles_y` is exact) and whose tile count fits in `u32`,
`AppConfig::tiles()` equals
`⌈width / tile_size⌉ * ⌈height / tile_size⌉` exactly, where
`⌈a / b⌉ = (a + b - 1) / b` in integer arithmetic. -/
theorem C3_tiles_exact_in_range (c : AppConfig) (hv : c.Valid)
    (hbw : c.width + c.tile_size - 1 ≤ 2 ^ 24)
    (hbh : c.height + c.tile_size - 1 ≤ 2 ^ 24)
    (hprod : (c.width + c.tile_size - 1) / c.tile_size *
      ((c.height + c.tile_size - 1) / c.tile_size) < 2 ^ 32) :
    AppConfig.tiles c = (c.width + c.tile_size - 1) / c.tile_size *
      ((c.height + c.tile_size - 1) / c.tile_size) := by
  obtain ⟨hw1, _, hh1, _, _, hts1, _, _⟩ := hv
  exact AppConfig.tiles_exact c hw1 hh1 hts1 hbw hbh hprod

/-- Witness for C3 at the spec's concrete scenario
(`width = height = 64`, `tile_size = 32`, hence `2 * 2 = 4` tiles). -/
theorem C3_tiles_exact_in_range_witness : AppConfig.tiles cfg64 = 4 := by
  have h := C3_tiles_exact_in_range cfg64 (by decide) (by decide) (by decide) (by decide)
  norm_num [cfg64] at h
  exact h

/-- **C4 counterexample**: for the valid configuration
`width = 2 ^ 24 + 3, height = 1, tile_size = 1` the `f32` tile count
overcounts (`tiles = 2 ^ 24 + 4 > width`), and the rectangle both
`get_tile_bounds` implementations return for the valid tile index
`2 ^ 24 + 3` starts at `x_min = width`, outside `[0, width)`. -/
theorem C4_bounds_outside_image :
    cfg_wide3.Valid ∧ 16777219 < AppConfig.tiles cfg_wide3 ∧
      ¬ (MainRs.get_tile_bounds cfg_wide3 16777219).1 < cfg_wide3.width ∧
      ¬ (AppRs.get_tile_bounds cfg_wide3 16777219).1 < cfg_wide3.width := by
  have htx := tiles_x_cfg_wide3
  refine ⟨by decide, ?_, ?_, ?_⟩
  · rw [tiles_cfg_wide3]
    norm_num
  · simp only [MainRs.get_tile_bounds, htx]
    decide
  · simp only [AppRs.get_tile_bounds, htx]
    decide

/-- **C4 (amended)**: for every valid configuration with
`width + tile_size - 1 ≤ 2 ^ 24` and `height + tile_size - 1 ≤ 2 ^ 24`
(the range in which the `f32` tile count is exact) and every tile index
`t < tiles`, the rectangles returned by both `get_tile_bounds`
implementations lie inside `[0, width) × [0, height)`:
`x_min ≤ x_max < width` and `y_min ≤ y_max < height`. -/
theorem C4_bounds_in_image (c : AppConfig) (hv : c.Valid)
    (hbw : c.width + c.tile_size - 1 ≤ 2 ^ 24)
    (hbh : c.height + c.tile_size - 1 ≤ 2 ^ 24)
    (t : ℕ) (ht : t < AppConfig.tiles c) :
    ((MainRs.get_tile_bounds c t).1 ≤ (MainRs.get_tile_bounds c t).2.2.1 ∧
      (MainRs.get_tile_bounds c t).2.2.1 < c.width ∧
      (MainRs.get_tile_bounds c t).2.1 ≤ (MainRs.get_tile_bounds c t).2.2.2 ∧
      (MainRs.get_tile_bounds c t).2.2.2 < c.height) ∧
    ((AppRs.get_tile_bounds c t).1 ≤ (AppRs.get_tile_bounds c t).2.2.1 ∧
      (AppRs.get_tile_bounds c t).2.2.1 < c.width ∧
      (AppRs.get_tile_bounds c t).2.1 ≤ (AppRs.get_tile_bounds c t).2.2.2 ∧
      (AppRs.get_tile_bounds c t).2.2.2 < c.height) := by
  obtain ⟨hw1, hw32, hh1, hh32, hnt, hts1, hts255, hml⟩ := hv
  have hxl := MainRs.x_min_le c hw1 hts1 hbw t
  have hyl := MainRs.y_min_le c hw1 hh1 hts1 hbw hbh t ht
  rw [MainRs.main_bounds_eval c hw1 hh1 hts1 hbw hbh t ht,
    AppRs.app_bounds_eval c hw1 hh1 hts1 hbw hbh t ht]
  dsimp only
  refine ⟨⟨?_, ?_, ?_, ?_⟩, ⟨?_, ?_, ?_, ?_⟩⟩ <;> split_ifs <;> omega

/-- Witness for C4 at the spec's concrete scenario, tile 3
(the bottom-right tile of the 64×64 image). -/
theorem C4_bounds_in_image_witness :
    (MainRs.get_tile_bounds cfg64 3).1 ≤ (MainRs.get_tile_bounds cfg64 3).2.2.1 ∧
      (MainRs.get_tile_bounds cfg64 3).2.2.1 < cfg64.width ∧
      (AppRs.get_tile_bounds cfg64 3).2.2.2 < cfg64.height := by
  have h := C4_bounds_in_image cfg64 (by decide) (by decide) (by decide) 3
    (by rw [tiles_cfg64]; norm_num)
  exact ⟨h.1.1, h.1.2.1, h.2.2.2.2⟩

/-- **C5 counterexample**: on the spec's concrete scenario the two
`get_tile_bounds` implementations disagree already at tile 0:
`main.rs` returns `(0, 0, 32, 32)` while `app.rs` returns
`(0, 0, 31, 31)`. -/
theorem C5_bounds_impls_differ :
    cfg64.Valid ∧ 0 < AppConfig.tiles cfg64 ∧
      MainRs.get_tile_bounds cfg64 0 ≠ AppRs.get_tile_bounds cfg64 0 := by
  have htx := tiles_x_cfg64
  refine ⟨by decide, ?_, ?_⟩
  · rw [tiles_cfg64]
    norm_num
  · simp only [MainRs.get_tile_bounds, AppRs.get_tile_bounds, htx]
    decide

/-- **C5 (amended)**: for in-range valid configurations and valid tile
indices, the two implementations agree on `x_min` and `y_min`, and their
maxima are related by `app_max = min main_max (min + tile_size - 1)` on
each axis: `main.rs` clamps the exclusive bound `min + tile_size` to
`dim - 1` while `app.rs` clamps the inclusive bound
`min + tile_size - 1`. -/
theorem C5_bounds_relation (c : AppConfig) (hv : c.Valid)
    (hbw : c.width + c.tile_size - 1 ≤ 2 ^ 24)
    (hbh : c.height + c.tile_size - 1 ≤ 2 ^ 24)
    (t : ℕ) (ht : t < AppConfig.tiles c) :
    (AppRs.get_tile_bounds c t).1 = (MainRs.get_tile_bounds c t).1 ∧
    (AppRs.get_tile_bounds c t).2.1 = (MainRs.get_tile_bounds c t).2.1 ∧
    (AppRs.get_tile_bounds c t).2.2.1 =
      min ((MainRs.get_tile_bounds c t).2.2.1)
        ((AppRs.get_tile_bounds c t).1 + c.tile_size - 1) ∧
    (AppRs.get_tile_bounds c t).2.2.2 =
      min ((MainRs.get_tile_bounds c t).2.2.2)
        ((AppRs.get_tile_bounds c t).2.1 + c.tile_size - 1) := by
  obtain ⟨hw1, hw32, hh1, hh32, hnt, hts1, hts255, hml⟩ := hv
  have hxl := MainRs.x_min_le c hw1 hts1 hbw t
  have hyl := MainRs.y_min_le c hw1 hh1 hts1 hbw hbh t ht
  rw [MainRs.main_bounds_eval c hw1 hh1 hts1 hbw hbh t ht,
    AppRs.app_bounds_eval c hw1 hh1 hts1 hbw hbh t ht]
  dsimp only
  refine ⟨rfl, rfl, ?_, ?_⟩ <;> split_ifs <;> omega

/-- Witness for C5 at the spec's concrete scenario, tile 0. -/
theorem C5_bounds_relation_witness :
    (AppRs.get_tile_bounds cfg64 0).1 = (MainRs.get_tile_bounds cfg64 0).1 ∧
      (AppRs.get_tile_bounds cfg64 0).2.2.1 =
        min ((MainRs.get_tile_bounds cfg64 0).2.2.1)
          ((AppRs.get_tile_bounds cfg64 0).1 + cfg64.tile_size - 1) := by
  have h := C5_bounds_relation cfg64 (by decide) (by decide) (by decide) 0
    (by rw [tiles_cfg64]; norm_num)
  exact ⟨h.1, h.2.2.1⟩

/-- **C1**: on the spec's own concrete scenario
(`width = height = 64`, `tile_size = 32`, `tile_count = 4`), no merge of
any of the four tiles ever writes the frame-buffer byte `16128`
(pixel `(0, 63)`, the start of the bottom row), although that byte lies
inside the `width * height * 4` buffer: the `main.rs` merge loop runs
`y` over `y_min..y_max` exclusive with `y_max` clamped to `height - 1`,
so the bottom row of the image is never written and the tile rectangles
do not cover the buffer. -/
theorem C1_main_merge_bottom_row_gap :
    AppConfig.tiles cfg64 = 4 ∧
      ((List.range (AppConfig.tiles cfg64)).all
        fun t => ! MainRs.writesByte cfg64 t 16128) = true ∧
      16128 < frame_bytes cfg64 := by
  refine ⟨tiles_cfg64, ?_, by decide⟩
  rw [tiles_cfg64]
  simp only [MainRs.writesByte, MainRs.copy_tile_copies, MainRs.get_tile_bounds,
    tiles_x_cfg64]
  decide

/-- **C2**: for the valid clipped configuration
`width = 1, height = 3, tile_size = 3` (a width that is not a multiple of
the tile size), the `main.rs` merge of tile 0 performs a row copy whose
destination end index `16` exceeds the frame buffer length
`width * height * 4 = 12`: `frame[dst_start..dst_end]` panics. -/
theorem C2_main_merge_dst_out_of_bounds :
    cfg_thin.Valid ∧ AppConfig.tiles cfg_thin = 1 ∧
      ∃ cp ∈ MainRs.copy_tile_copies cfg_thin 0, frame_bytes cfg_thin < cp.2.1 := by
  refine ⟨by decide, tiles_cfg_thin, ?_⟩
  simp only [MainRs.copy_tile_copies, MainRs.get_tile_bounds, tiles_x_cfg_thin]
  decide

/-- **C6**: the reliable-send loop `message_thread` returns immediately
with no error when the first `try_send` reports a disconnected channel
(shutdown already tore down the receiver), terminates at once on a
successful send, and any finite run of `Full` outcomes followed by an
`Ok` still delivers the message (it is never dropped because the channel
was transiently full). -/
theorem C6_message_thread_reliable :
    (∀ rest, MainRs.message_thread (SendOutcome.disconnected :: rest) =
      some SendOutcome.disconnected) ∧
    (∀ rest, MainRs.message_thread (SendOutcome.ok :: rest) =
      some SendOutcome.ok) ∧
    (∀ n rest, MainRs.message_thread
      (List.replicate n SendOutcome.full ++ SendOutcome.ok :: rest) =
      some SendOutcome.ok) := by
  refine ⟨fun rest => rfl, fun rest => rfl, fun n rest => ?_⟩
  induction n with
  | zero => rfl
  | succ n ih =>
    rw [List.replicate_succ, List.cons_append]
    simpa [MainRs.message_thread] using ih

/-- **C7**: once at least one stop message arrives, the shutdown
coordinator `wait_for_exit` sends exactly one stop to the scheduler
channel, one to the redraw channel, one to the work channel,
`threads()`-many stops to the result channel and exactly one completion
message, the completion message comes after every other send, and the
fan-out happens exactly once (the trace does not depend on how many stop
messages arrive). -/
theorem C7_shutdown_fanout (c : AppConfig) (n : ℕ) (hn : 1 ≤ n) :
    (MainRs.wait_for_exit c n).count Dest.queue = 1 ∧
    (MainRs.wait_for_exit c n).count Dest.redraw = 1 ∧
    (MainRs.wait_for_exit c n).count Dest.work = 1 ∧
    (MainRs.wait_for_exit c n).count Dest.result = c.threads ∧
    (MainRs.wait_for_exit c n).count Dest.done = 1 ∧
    (∃ pre, MainRs.wait_for_exit c n = pre ++ [Dest.done] ∧
      pre.count Dest.done = 0) ∧
    MainRs.wait_for_exit c n = MainRs.wait_for_exit c 1 := by
  have hne : n ≠ 0 := by omega
  simp only [MainRs.wait_for_exit, if_neg hne, if_neg one_ne_zero]
  refine ⟨?_, ?_, ?_, ?_, ?_, ?_, trivial⟩
  · simp [List.count_append, List.count_replicate, List.count_cons]
  · simp [List.count_append, List.count_replicate, List.count_cons]
  · simp [List.count_append, List.count_replicate, List.count_cons]
  · simp [List.count_append, List.count_replicate, List.count_cons]
  · simp [List.count_append, List.count_replicate, List.count_cons]
  · refine ⟨[Dest.queue, Dest.redraw, Dest.work] ++
      List.replicate c.threads Dest.result, ?_, ?_⟩
    · simp [List.append_assoc]
    · simp [List.count_append, List.count_replicate, List.count_cons]

/-- Witness for C7: the fan-out trace for the spec's concrete scenario
(two workers) after one stop signal. -/
theorem C7_shutdown_fanout_witness :
    (MainRs.wait_for_exit cfg64 1).count Dest.result = cfg64.threads ∧
      (MainRs.wait_for_exit cfg64 1).count Dest.done = 1 := by
  have h := C7_shutdown_fanout cfg64 1 (by norm_num)
  exact ⟨h.2.2.2.1, h.2.2.2.2.1⟩

/-- With no stop signal ever present, the scheduler loop forwards its
tile list unchanged. -/
lemma MainRs.queue_tilesGo_nostop (stop : ℕ → Bool)
    (hstop : ∀ i, stop i = false) :
    ∀ l i, MainRs.queue_tilesGo stop i l = l := by
  intro l
  induction l with
  | nil => intro i; rfl
  | cons t rest ih =>
    intro i
    simp [MainRs.queue_tilesGo, hstop i, ih (i + 1)]

/-- **C8**: given the shuffled permutation of `0..tiles()` produced by the
scheduler and a stop check that never fires, `queue_tiles` sends
`Process(t)` for exactly that permutation — every tile index in
`[0, tiles())` exactly once, no duplicates, no omissions; and whenever the
very first stop check fires (signal present or channel disconnected), it
sends nothing at all. -/
theorem C8_scheduler_each_tile_once (c : AppConfig) (perm : List ℕ)
    (stop : ℕ → Bool) (hperm : perm.Perm (List.range (AppConfig.tiles c)))
    (hnostop : ∀ i, stop i = false) :
    MainRs.queue_tiles stop perm = perm ∧
    (MainRs.queue_tiles stop perm).Perm (List.range (AppConfig.tiles c)) ∧
    (∀ tdx, tdx < AppConfig.tiles c →
      (MainRs.queue_tiles stop perm).count tdx = 1) ∧
    (∀ tdx, (MainRs.queue_tiles stop perm).count tdx ≤ 1) ∧
    (∀ stop2 : ℕ → Bool, ∀ perm2 : List ℕ, stop2 0 = true →
      MainRs.queue_tiles stop2 perm2 = []) := by
  have heq : MainRs.queue_tiles stop perm = perm :=
    MainRs.queue_tilesGo_nostop stop hnostop perm 0
  refine ⟨heq, ?_, ?_, ?_, ?_⟩
  · rw [heq]
    exact hperm
  · intro tdx htd
    rw [heq, hperm.count_eq]
    exact List.count_eq_one_of_mem (List.nodup_range _) (List.mem_range.2 htd)
  · intro tdx
    rw [heq, hperm.count_eq]
    exact List.nodup_iff_count_le_one.1 (List.nodup_range _) tdx
  · intro stop2 perm2 h0
    cases perm2 with
    | nil => rfl
    | cons a l => simp [MainRs.queue_tiles, MainRs.queue_tilesGo, h0]

/-- Witness for C8: a shuffled order of the four tiles of the spec's
concrete scenario is forwarded unchanged and is a permutation of
`0..tiles()`. -/
theorem C8_scheduler_each_tile_once_witness :
    MainRs.queue_tiles (fun _ => false) [2, 0, 3, 1] = [2, 0, 3, 1] ∧
      (MainRs.queue_tiles (fun _ => false) [2, 0, 3, 1]).Perm
        (List.range (AppConfig.tiles cfg64)) := by
  have h := C8_scheduler_each_tile_once cfg64 [2, 0, 3, 1] (fun _ => false)
    (by rw [tiles_cfg64]; decide) (fun i => rfl)
  exact ⟨h.1, h.2.1⟩

/-- **C9**: with the valid configuration `max_load_millis = 1`, the sleep
duration `rng.gen_range(1..max_load_millis)` in the worker draws from the
empty range `1..1` and panics (modelled as `none`); with
`max_load_millis = 100` the drawn duration lies in `[1, 99]`, inside the
claimed `[1, max]` but never reaching `max` itself. -/
theorem C9_sleep_empty_range_panics :
    cfg_lat1.Valid ∧ MainRs.sleep_millis cfg_lat1 0 = none ∧
      (∀ r, ∃ v, MainRs.sleep_millis cfg64 r = some v ∧ 1 ≤ v ∧ v ≤ 99) := by
  refine ⟨by decide, by decide, fun r => ?_⟩
  refine ⟨1 + r % 99, ?_, by omega, by omega⟩
  rfl

/-- The fill loop turns a zeroed buffer of `4 * k` bytes into `k` copies
of the RGBA pixel `[r, g, b, 255]`. -/
lemma MainRs.fillChunks_replicate (r g b : ℕ) :
    ∀ k, MainRs.fillChunks r g b (List.replicate (4 * k) 0) =
      some (List.replicate k [r, g, b, 255]).flatten := by
  intro k
  induction k with
  | zero => rfl
  | succ k ih =>
    have h4 : 4 * (k + 1) = 4 + 4 * k := by ring
    rw [h4, List.replicate_add]
    show MainRs.fillChunks r g b (0 :: 0 :: 0 :: 0 :: List.replicate (4 * k) 0) = _
    rw [MainRs.fillChunks, ih]
    simp [List.replicate_succ]

lemma flatten_replicate_length (r g b k : ℕ) :
    ((List.replicate k [r, g, b, 255]).flatten).length = 4 * k := by
  induction k with
  | zero => rfl
  | succ k ih =>
    rw [List.replicate_succ]
    simp [ih]
    ring

/-- **C10**: for every configuration and `Process(tile_idx)` message, the
`TilePixels` the worker sends carries the same tile index and a buffer of
exactly `tile_size * tile_size * 4` bytes consisting of
`tile_size * tile_size` identical RGBA pixels `[r, g, b, 255]` — one
solid color with alpha 255. -/
theorem C10_render_tile_solid_color (c : AppConfig) (tile_idx r g b : ℕ) :
    MainRs.render_tile c tile_idx r g b =
      some (tile_idx,
        (List.replicate (c.tile_size * c.tile_size) [r, g, b, 255]).flatten) ∧
    ((List.replicate (c.tile_size * c.tile_size) [r, g, b, 255]).flatten).length =
      c.tiles_pixel_bytes := by
  constructor
  · rw [MainRs.render_tile, AppConfig.tiles_pixel_bytes,
      show c.tile_size * c.tile_size * COLOR_CHANNELS =
        4 * (c.tile_size * c.tile_size) by rw [COLOR_CHANNELS]; ring,
      MainRs.fillChunks_replicate]
    rfl
  · rw [flatten_replicate_length, AppConfig.tiles_pixel_bytes, COLOR_CHANNELS]
    ring
